import Mathlib

/-!
Shallow embedding of the chunked streaming transfer engine of `petit-cli`
(`src/petit_cli/commands/clone_db.py` and `src/petit_cli/commands/td2parquet.py`),
together with proofs about its chunking, write-mode, dry-run, schema and
resource-release behaviour.

Rows are treated as opaque values of a type `ρ`; the inferred columnar schema of
the Parquet path is an opaque value of a type `σ` produced by a caller-supplied
inference function (modelling `pa.Table.from_pandas`).  External collaborators
(the Treasure Data query job, the pytd writer, pyarrow) are modelled at their
interface boundary exactly as the source uses them.
-/

namespace PetitCli

variable {ρ σ : Type}

/-- `TableExistsAction` from `clone_db.py`: action taken when the destination
table already exists. -/
inductive TableExistsAction where
  | error
  | skip
  | overwrite
deriving DecidableEq, Repr

/-- Termination behaviour of the row iterator obtained from
`job.result_format(...)`: it is either exhausted normally (`eof`) or raises
mid-stream after yielding its listed rows (`err`). -/
inductive StreamEnd where
  | eof
  | err
deriving DecidableEq, Repr

/-- A source row cursor: the rows it yields, and how it terminates. -/
structure RowSource (ρ : Type) where
  rows : List ρ
  ending : StreamEnd
deriving DecidableEq, Repr

/-- The chunk-accumulation loop shared by `_process_table_chunks` in
`clone_db.py` and `save_incremental_parquet` in `td2parquet.py`:

    chunk_data = []
    for row in data_iter:
        chunk_data.append(row)
        if len(chunk_data) >= chunk_size:
            <emit chunk_data>
            chunk_data = []
    if chunk_data:
        <emit chunk_data>

`buf` is the current `chunk_data`.  If the iterator raises mid-stream (`err`),
the loop is abandoned: the partially accumulated `buf` is never emitted. -/
def chunkLoop (cs : Nat) (ending : StreamEnd) : List ρ → List ρ → List (List ρ)
  | [], buf =>
    match ending with
    | StreamEnd.eof => if buf.isEmpty then [] else [buf]
    | StreamEnd.err => []
  | r :: rs, buf =>
    if cs ≤ (buf ++ [r]).length then (buf ++ [r]) :: chunkLoop cs ending rs []
    else chunkLoop cs ending rs (buf ++ [r])

/-- The chunks produced from a normally terminating row stream. -/
def chunks (cs : Nat) (rows : List ρ) : List (List ρ) :=
  chunkLoop cs StreamEnd.eof rows []

@[simp] lemma chunkLoop_nil_eof (cs : Nat) (buf : List ρ) :
    chunkLoop cs StreamEnd.eof [] buf = if buf.isEmpty then [] else [buf] := rfl

@[simp] lemma chunkLoop_nil_err (cs : Nat) (buf : List ρ) :
    chunkLoop cs StreamEnd.err [] buf = [] := rfl

lemma chunkLoop_cons (cs : Nat) (ending : StreamEnd) (r : ρ) (rs buf : List ρ) :
    chunkLoop cs ending (r :: rs) buf =
      if cs ≤ buf.length + 1 then (buf ++ [r]) :: chunkLoop cs ending rs []
      else chunkLoop cs ending rs (buf ++ [r]) := by
  simp [chunkLoop]

/-- Every row that enters the loop ends up in exactly one emitted chunk, in
order: flattening the chunks of a normally terminating stream recovers the
buffered rows followed by the remaining input rows. -/
lemma chunkLoop_eof_flatten (cs : Nat) :
    ∀ (rows buf : List ρ), (chunkLoop cs StreamEnd.eof rows buf).flatten = buf ++ rows := by
  intro rows
  induction rows with
  | nil =>
    intro buf
    by_cases h : buf.isEmpty
    · simp [h, List.isEmpty_iff.mp h]
    · simp [h]
  | cons r rs ih =>
    intro buf
    rw [chunkLoop_cons]
    by_cases h : cs ≤ buf.length + 1
    · simp [h, ih]
    · simp [h, ih]

/-- A normally terminating run emits no chunk exactly when there is neither a
buffered row nor a remaining input row. -/
lemma chunkLoop_eof_eq_nil_iff (cs : Nat) :
    ∀ (rows buf : List ρ),
      chunkLoop cs StreamEnd.eof rows buf = [] ↔ (buf = [] ∧ rows = []) := by
  intro rows
  induction rows with
  | nil =>
    intro buf
    by_cases h : buf.isEmpty
    · simp [h, List.isEmpty_iff.mp h]
    · simp [h, List.isEmpty_iff.not.mp h]
  | cons r rs ih =>
    intro buf
    rw [chunkLoop_cons]
    by_cases h : cs ≤ buf.length + 1
    · simp [h]
    · simp [h, ih]

/-- Chunk count of a normally terminating run: with fewer than `cs` rows
already buffered, the loop emits `⌈(buffered + remaining) / cs⌉` chunks. -/
lemma chunkLoop_eof_length (cs : Nat) :
    ∀ (rows buf : List ρ), buf.length < cs →
      (chunkLoop cs StreamEnd.eof rows buf).length
        = (buf.length + rows.length + cs - 1) / cs := by
  intro rows
  induction rows with
  | nil =>
    intro buf hb
    by_cases h : buf.isEmpty
    · have hb0 : buf = [] := List.isEmpty_iff.mp h
      subst hb0
      have hd : (cs - 1) / cs = 0 := Nat.div_eq_of_lt (by omega)
      simp [hd]
    · have hb1 : 1 ≤ buf.length := by
        cases buf with
        | nil => simp at h
        | cons a l => simp
      rw [chunkLoop_nil_eof, if_neg h]
      have he : buf.length + List.length ([] : List ρ) + cs - 1
          = (buf.length - 1) + 1 * cs := by
        simp only [List.length_nil]
        omega
      rw [he, Nat.add_mul_div_right _ _ (by omega : 0 < cs),
        Nat.div_eq_of_lt (by omega : buf.length - 1 < cs)]
      simp
  | cons r rs ih =>
    intro buf hb
    rw [chunkLoop_cons]
    by_cases h : cs ≤ buf.length + 1
    · have hfull : buf.length + 1 = cs := by omega
      rw [if_pos h, List.length_cons, ih [] (by simp; omega)]
      have he : buf.length + (r :: rs).length + cs - 1
          = List.length ([] : List ρ) + rs.length + cs - 1 + 1 * cs := by
        simp only [List.length_nil, List.length_cons]
        omega
      rw [he, Nat.add_mul_div_right _ _ (by omega : 0 < cs)]
    · rw [if_neg h, ih (buf ++ [r]) (by simp; omega)]
      have he : (buf ++ [r]).length + rs.length + cs - 1
          = buf.length + (r :: rs).length + cs - 1 := by
        simp only [List.length_append, List.length_cons, List.length_nil,
          List.length_singleton]
        omega
      rw [he]

/-- Every emitted chunk other than the last has exactly `cs` rows
(normal termination). -/
lemma chunkLoop_eof_dropLast_sizes (cs : Nat) :
    ∀ (rows buf : List ρ), buf.length < cs →
      ∀ c ∈ (chunkLoop cs StreamEnd.eof rows buf).dropLast, c.length = cs := by
  intro rows
  induction rows with
  | nil =>
    intro buf _ c hc
    by_cases h : buf.isEmpty <;> simp [h] at hc
  | cons r rs ih =>
    intro buf hb c hc
    rw [chunkLoop_cons] at hc
    by_cases h : cs ≤ buf.length + 1
    · rw [if_pos h] at hc
      rcases hrest : chunkLoop cs StreamEnd.eof rs ([] : List ρ) with _ | ⟨c2, t⟩
      · rw [hrest] at hc
        simp at hc
      · rw [hrest, List.dropLast_cons₂] at hc
        rcases List.mem_cons.mp hc with hc1 | hc2
        · subst hc1
          simp
          omega
        · have := ih ([] : List ρ) (by simpa using Nat.lt_of_le_of_lt (Nat.zero_le _) hb) c
          rw [hrest] at this
          exact this hc2
    · rw [if_neg h] at hc
      exact ih (buf ++ [r]) (by simp; omega) c hc

/-- Length of the final emitted chunk of a nonempty, normally terminating run:
`total % cs` rows, or `cs` when `total` is an exact multiple of `cs`. -/
lemma chunkLoop_eof_getLast (cs : Nat) :
    ∀ (rows buf : List ρ), buf.length < cs → ¬(buf = [] ∧ rows = []) →
      (chunkLoop cs StreamEnd.eof rows buf).getLast?.map List.length
        = some (if (buf.length + rows.length) % cs = 0 then cs
                else (buf.length + rows.length) % cs) := by
  intro rows
  induction rows with
  | nil =>
    intro buf hb hne
    have hbne : ¬buf.isEmpty := by
      simp only [List.isEmpty_iff]
      intro hb0
      exact hne ⟨hb0, rfl⟩
    have hb1 : 1 ≤ buf.length := by
      cases buf with
      | nil => simp at hbne
      | cons a l => simp
    have hmod : buf.length % cs = buf.length := Nat.mod_eq_of_lt hb
    have hne0 : ¬((buf.length + List.length ([] : List ρ)) % cs = 0) := by
      simp only [List.length_nil, Nat.add_zero]
      omega
    rw [chunkLoop_nil_eof, if_neg hbne, if_neg hne0]
    simp [hmod]
  | cons r rs ih =>
    intro buf hb _
    rw [chunkLoop_cons]
    by_cases h : cs ≤ buf.length + 1
    · have hfull : buf.length + 1 = cs := by omega
      rw [if_pos h]
      rcases hrest : chunkLoop cs StreamEnd.eof rs ([] : List ρ) with _ | ⟨c2, t⟩
      · have hrs : rs = [] := ((chunkLoop_eof_eq_nil_iff cs rs []).mp hrest).2
        subst hrs
        have hmod : (buf.length + 1) % cs = 0 := by
          rw [hfull]
          exact Nat.mod_self cs
        simp [hmod]
        omega
      · have hcspos : 0 < cs := by omega
        have hrsne : rs ≠ [] := by
          intro hrs
          rw [hrs] at hrest
          simp at hrest
        have hlast := ih ([] : List ρ) (by simpa using hcspos) (by simp [hrsne])
        rw [hrest] at hlast
        have hmod : (buf.length + (r :: rs).length) % cs = rs.length % cs := by
          simp only [List.length_cons]
          have : buf.length + (rs.length + 1) = rs.length + 1 * cs := by omega
          rw [this, Nat.add_mul_mod_self_right]
        rw [List.getLast?_cons_cons, hmod]
        simpa using hlast
    · rw [if_neg h]
      have hlast := ih (buf ++ [r]) (by simp; omega) (by simp)
      have hmod : ((buf ++ [r]).length + rs.length) = buf.length + (r :: rs).length := by
        simp
        omega
      rw [hlast, hmod]

/-- When the iterator raises mid-stream, every emitted chunk is full: partial
buffers are never emitted. -/
lemma chunkLoop_err_sizes (cs : Nat) :
    ∀ (rows buf : List ρ), buf.length < cs →
      ∀ c ∈ chunkLoop cs StreamEnd.err rows buf, c.length = cs := by
  intro rows
  induction rows with
  | nil =>
    intro buf _ c hc
    simp at hc
  | cons r rs ih =>
    intro buf hb c hc
    rw [chunkLoop_cons] at hc
    by_cases h : cs ≤ buf.length + 1
    · rw [if_pos h] at hc
      rcases List.mem_cons.mp hc with hc1 | hc2
      · subst hc1
        simp
        omega
      · exact ih ([] : List ρ) (by simpa using Nat.lt_of_le_of_lt (Nat.zero_le _) hb) c hc2
    · rw [if_neg h] at hc
      exact ih (buf ++ [r]) (by simp; omega) c hc

/-- When the iterator raises mid-stream, exactly the full-chunk prefix of the
stream has been emitted; the rows of the in-flight partial chunk are dropped. -/
lemma chunkLoop_err_flatten (cs : Nat) :
    ∀ (rows buf : List ρ), buf.length < cs →
      (chunkLoop cs StreamEnd.err rows buf).flatten
        = (buf ++ rows).take (cs * ((buf.length + rows.length) / cs)) := by
  intro rows
  induction rows with
  | nil =>
    intro buf hb
    have hd : (buf.length + List.length ([] : List ρ)) / cs = 0 :=
      Nat.div_eq_of_lt (by simpa using hb)
    rw [chunkLoop_nil_err, hd]
    simp
  | cons r rs ih =>
    intro buf hb
    rw [chunkLoop_cons]
    by_cases h : cs ≤ buf.length + 1
    · have hfull : buf.length + 1 = cs := by omega
      have hlen : (buf ++ [r]).length = cs := by
        simp only [List.length_append, List.length_singleton]
        omega
      rw [if_pos h, List.flatten_cons, ih [] (by simp; omega)]
      simp only [List.length_nil, List.nil_append, Nat.zero_add]
      have hdiv : buf.length + (r :: rs).length = rs.length + 1 * cs := by
        simp only [List.length_cons]
        omega
      rw [hdiv, Nat.add_mul_div_right _ _ (by omega : 0 < cs), Nat.mul_add, Nat.mul_one]
      have happ : buf ++ r :: rs = (buf ++ [r]) ++ rs := by simp
      rw [happ, Nat.add_comm (cs * (rs.length / cs)) cs]
      have htake : List.take (cs + cs * (rs.length / cs)) ((buf ++ [r]) ++ rs)
          = (buf ++ [r]) ++ List.take (cs * (rs.length / cs)) rs := by
        conv_lhs =>
          rw [show cs + cs * (rs.length / cs)
              = (buf ++ [r]).length + cs * (rs.length / cs) by rw [hlen]]
        exact List.take_append _
      rw [htake]
    · rw [if_neg h, ih (buf ++ [r]) (by simp; omega)]
      have h1 : (buf ++ [r]).length + rs.length = buf.length + (r :: rs).length := by
        simp only [List.length_append, List.length_singleton, List.length_nil,
          List.length_cons]
        omega
      have h2 : (buf ++ [r]) ++ rs = buf ++ r :: rs := by simp
      rw [h1, h2]

/-- Sink-writer operations observable in `copy_table` / `_process_table_chunks`
(`clone_db.py`).  The vocabulary is the SinkWriter capability set; the source
only ever issues `write` (a `writer.write_dataframe(chunk_df, table,
if_exists=...)` call built from the chunk rows, the schema-derived column list
and the `if_exists` mode string) — it contains no `close` call on the writer,
so the embedding never emits `close`. -/
inductive CloneEvent (ρ : Type) where
  | write (chunk : List ρ) (columns : List String) (ifExists : String)
  | close
deriving DecidableEq, Repr

/-- Typed job failures surfaced by `copy_table`. -/
inductive CloneError where
  | queryJobFailure
  | sourceRead
deriving DecidableEq, Repr

/-- Observable result of one `copy_table` call: the sink operations it issued,
how many rows it pulled from the source cursor, whether it returned early at
the existence check, and the error it re-raises (if any). -/
structure CopyTableResult (ρ : Type) where
  events : List (CloneEvent ρ)
  rowsRead : Nat
  skippedExisting : Bool
  error : Option CloneError
deriving DecidableEq, Repr

/-- `if_exists_param` of `_process_table_chunks`:
`"overwrite" if table_exists_action == TableExistsAction.OVERWRITE else "error"`. -/
def ifExistsParam (action : TableExistsAction) : String :=
  if action = TableExistsAction.overwrite then "overwrite" else "error"

/-- Mode string passed for the chunk with counter `chunkCount`:
`if_exists_param if chunk_count == 0 else "append"`. -/
def ifExistsOf (action : TableExistsAction) (chunkCount : Nat) : String :=
  if chunkCount = 0 then ifExistsParam action else "append"

/-- The chunked write loop of `_process_table_chunks`: rows are buffered in
`chunk_data` (`buf`), each full chunk (and the final partial chunk on normal
termination) is written via `_write_chunk_to_destination` with the mode string
determined by the running `chunk_count` (`cnt`).  If the iterator raises
mid-stream (`err`), the loop is abandoned without flushing `buf`. -/
def processLoop (action : TableExistsAction) (columns : List String) (cs : Nat)
    (ending : StreamEnd) : List ρ → List ρ → Nat → List (CloneEvent ρ)
  | [], buf, cnt =>
    match ending with
    | StreamEnd.eof =>
      if buf.isEmpty then [] else [CloneEvent.write buf columns (ifExistsOf action cnt)]
    | StreamEnd.err => []
  | r :: rs, buf, cnt =>
    if cs ≤ (buf ++ [r]).length then
      CloneEvent.write (buf ++ [r]) columns (ifExistsOf action cnt)
        :: processLoop action columns cs ending rs [] (cnt + 1)
    else processLoop action columns cs ending rs (buf ++ [r]) cnt

/-- `copy_table` (`clone_db.py`): existence check with the SKIP / ERROR early
returns, the query-job success check, then the chunked write loop.  A raise
from the source iterator is re-raised to the caller after the loop aborts. -/
def copyTable (tableExists : Bool) (action : TableExistsAction)
    (columns : List String) (cs : Nat) (jobSuccess : Bool)
    (src : RowSource ρ) : CopyTableResult ρ :=
  if tableExists ∧ (action = TableExistsAction.skip ∨ action = TableExistsAction.error) then
    { events := [], rowsRead := 0, skippedExisting := true, error := none }
  else if ¬jobSuccess then
    { events := [], rowsRead := 0, skippedExisting := false,
      error := some CloneError.queryJobFailure }
  else
    { events := processLoop action columns cs src.ending src.rows [] 0,
      rowsRead := src.rows.length,
      skippedExisting := false,
      error := if src.ending = StreamEnd.err then some CloneError.sourceRead else none }

/-- Chunk list tagged with per-index mode strings: the write trace the loop
produces, expressed over the emitted chunk list. -/
def modeTagged (action : TableExistsAction) (columns : List String) :
    Nat → List (List ρ) → List (CloneEvent ρ)
  | _, [] => []
  | cnt, c :: rest =>
    CloneEvent.write c columns (ifExistsOf action cnt)
      :: modeTagged action columns (cnt + 1) rest

/-- The write loop writes exactly the accumulated chunks, in order, tagging the
chunk with counter `cnt` with mode `ifExistsOf action cnt`. -/
lemma processLoop_eq_modeTagged (action : TableExistsAction) (columns : List String)
    (cs : Nat) (ending : StreamEnd) :
    ∀ (rows buf : List ρ) (cnt : Nat),
      processLoop action columns cs ending rows buf cnt
        = modeTagged action columns cnt (chunkLoop cs ending rows buf) := by
  intro rows
  induction rows with
  | nil =>
    intro buf cnt
    cases ending with
    | eof =>
      by_cases h : buf.isEmpty
      · simp [processLoop, h, modeTagged]
      · simp [processLoop, h, modeTagged]
    | err => simp [processLoop, modeTagged]
  | cons r rs ih =>
    intro buf cnt
    rw [chunkLoop_cons]
    by_cases h : cs ≤ buf.length + 1
    · have h' : cs ≤ (buf ++ [r]).length := by simp; omega
      simp only [processLoop, if_pos h, if_pos h', modeTagged]
      rw [ih]
    · have h' : ¬cs ≤ (buf ++ [r]).length := by simp; omega
      simp only [processLoop, if_neg h, if_neg h']
      exact ih (buf ++ [r]) cnt

/-- Chunks recorded in a clone write trace. -/
def cloneChunks (evs : List (CloneEvent ρ)) : List (List ρ) :=
  evs.filterMap fun e =>
    match e with
    | CloneEvent.write c _ _ => some c
    | CloneEvent.close => none

/-- Column list recorded on a write event. -/
def cloneColumnsOf (e : CloneEvent ρ) : Option (List String) :=
  match e with
  | CloneEvent.write _ cols _ => some cols
  | CloneEvent.close => none

/-- Number of `close` operations in a clone trace. -/
def cloneCloseCount (evs : List (CloneEvent ρ)) : Nat :=
  evs.countP fun e =>
    match e with
    | CloneEvent.close => true
    | _ => false

/-- Number of `write` operations in a clone trace. -/
def cloneWriteCount (evs : List (CloneEvent ρ)) : Nat :=
  evs.countP fun e =>
    match e with
    | CloneEvent.write _ _ _ => true
    | _ => false

lemma cloneChunks_modeTagged (action : TableExistsAction) (columns : List String) :
    ∀ (l : List (List ρ)) (cnt : Nat),
      cloneChunks (modeTagged action columns cnt l) = l := by
  intro l
  induction l with
  | nil => intro cnt; rfl
  | cons c rest ih =>
    intro cnt
    simp only [modeTagged, cloneChunks, List.filterMap_cons]
    rw [← cloneChunks]
    rw [ih (cnt + 1)]

lemma cloneCloseCount_modeTagged (action : TableExistsAction) (columns : List String) :
    ∀ (l : List (List ρ)) (cnt : Nat),
      cloneCloseCount (modeTagged action columns cnt l) = 0 := by
  intro l
  induction l with
  | nil => intro cnt; rfl
  | cons c rest ih =>
    intro cnt
    simp only [modeTagged, cloneCloseCount, List.countP_cons]
    rw [← cloneCloseCount]
    rw [ih (cnt + 1)]
    simp

lemma cloneColumnsOf_modeTagged (action : TableExistsAction) (columns : List String) :
    ∀ (l : List (List ρ)) (cnt : Nat) (e : CloneEvent ρ),
      e ∈ modeTagged action columns cnt l → cloneColumnsOf e = some columns := by
  intro l
  induction l with
  | nil =>
    intro cnt e he
    simp [modeTagged] at he
  | cons c rest ih =>
    intro cnt e he
    rcases List.mem_cons.mp he with h1 | h2
    · subst h1; rfl
    · exact ih (cnt + 1) e h2

/-- Sink operations observable in `save_incremental_parquet` (`td2parquet.py`):
`ParquetWriter(output_path, table_schema)` construction (which creates the
output file), `writer.write_table(table)`, and `writer.close()`. -/
inductive PqEvent (σ : Type) where
  | initWriter (schema : σ)
  | writeTable (nrows : Nat) (schema : σ)
  | close
deriving DecidableEq, Repr

/-- Failures that can interrupt the incremental save: the row iterator raising
mid-stream, a pyarrow schema mismatch on `write_table`, or a sink I/O failure
raised by a write. -/
inductive PqError where
  | sourceRead
  | schemaMismatch
  | sinkFailure
deriving DecidableEq, Repr

/-- Environment of the incremental save, modelled at its interface boundary:
`infer` is the schema that `pa.Table.from_pandas` derives from a chunk, and
`failAtWrite` optionally injects a sink I/O failure at the write with that
index (modelling `write_table` raising). -/
structure PqSink (ρ σ : Type) where
  infer : List ρ → σ
  failAtWrite : Option Nat

/-- One chunk write of `save_incremental_parquet`: the chunk is converted to an
Arrow table (schema `infer chunk`); if the writer is not yet initialized it is
constructed from that schema (creating the output file); then `write_table`
runs, which raises on a schema mismatch with the writer's stored schema, or
fails when the injected I/O failure hits this write index. -/
def pqWriteChunk [DecidableEq σ] (sink : PqSink ρ σ) (chunk : List ρ)
    (writer : Option σ) (widx : Nat) :
    List (PqEvent σ) × Option σ × Option PqError :=
  match writer with
  | none =>
    if sink.failAtWrite = some widx then
      ([PqEvent.initWriter (sink.infer chunk)], some (sink.infer chunk),
        some PqError.sinkFailure)
    else
      ([PqEvent.initWriter (sink.infer chunk),
        PqEvent.writeTable chunk.length (sink.infer chunk)],
        some (sink.infer chunk), none)
  | some ws =>
    if sink.infer chunk ≠ ws then ([], some ws, some PqError.schemaMismatch)
    else if sink.failAtWrite = some widx then ([], some ws, some PqError.sinkFailure)
    else ([PqEvent.writeTable chunk.length ws], some ws, none)

/-- The `try` block of `save_incremental_parquet`: the chunk loop, writing each
full chunk and flushing the final partial chunk on normal termination.  Returns
the emitted events, the final writer state and the error that escapes the block
(the iterator raising mid-stream, a schema mismatch, or an injected write
failure). -/
def pqLoop [DecidableEq σ] (sink : PqSink ρ σ) (cs : Nat) (ending : StreamEnd) :
    List ρ → List ρ → Option σ → Nat → List (PqEvent σ) × Option σ × Option PqError
  | [], buf, writer, widx =>
    match ending with
    | StreamEnd.err => ([], writer, some PqError.sourceRead)
    | StreamEnd.eof =>
      if buf.isEmpty then ([], writer, none)
      else pqWriteChunk sink buf writer widx
  | r :: rs, buf, writer, widx =>
    if cs ≤ (buf ++ [r]).length then
      match pqWriteChunk sink (buf ++ [r]) writer widx with
      | (evs, w₂, some e) => (evs, w₂, some e)
      | (evs, w₂, none) =>
        match pqLoop sink cs ending rs [] w₂ (widx + 1) with
        | (evs₂, w₃, res) => (evs ++ evs₂, w₃, res)
    else pqLoop sink cs ending rs (buf ++ [r]) writer widx

/-- `save_incremental_parquet` (`td2parquet.py`): the chunk loop wrapped in
`try/finally` with `if writer: writer.close()` — close runs exactly when the
writer was constructed, on every exit path, before any error propagates. -/
def saveIncrementalParquet [DecidableEq σ] (sink : PqSink ρ σ) (cs : Nat)
    (src : RowSource ρ) : List (PqEvent σ) × Option PqError :=
  match pqLoop sink cs src.ending src.rows [] none 0 with
  | (evs, writer, res) =>
    (evs ++ (if writer.isSome then [PqEvent.close] else []), res)

/-- `fetch_table_incremental` (`td2parquet.py`): on query-job success runs the
incremental save and returns `True`; a failed job returns `False`; any raise
from the save is caught by the blanket `except` and mapped to `False`. -/
def fetchTableIncremental [DecidableEq σ] (jobSuccess : Bool) (sink : PqSink ρ σ)
    (cs : Nat) (src : RowSource ρ) : Bool × List (PqEvent σ) :=
  if jobSuccess then
    match saveIncrementalParquet sink cs src with
    | (evs, none) => (true, evs)
    | (evs, some _) => (false, evs)
  else (false, [])

/-- Number of `close` operations in a Parquet trace. -/
def closeCount (evs : List (PqEvent σ)) : Nat :=
  evs.countP fun e =>
    match e with
    | PqEvent.close => true
    | _ => false

/-- Schemas with which the Parquet writer was constructed, in trace order. -/
def initSchemas (evs : List (PqEvent σ)) : List σ :=
  evs.filterMap fun e =>
    match e with
    | PqEvent.initWriter s => some s
    | _ => none

/-- Schemas carried by the `write_table` calls, in trace order. -/
def writeSchemas (evs : List (PqEvent σ)) : List σ :=
  evs.filterMap fun e =>
    match e with
    | PqEvent.writeTable _ s => some s
    | _ => none

@[simp] lemma closeCount_nil : closeCount ([] : List (PqEvent σ)) = 0 := rfl

@[simp] lemma initSchemas_nil : initSchemas ([] : List (PqEvent σ)) = [] := rfl

@[simp] lemma writeSchemas_nil : writeSchemas ([] : List (PqEvent σ)) = [] := rfl

@[simp] lemma closeCount_append (l₁ l₂ : List (PqEvent σ)) :
    closeCount (l₁ ++ l₂) = closeCount l₁ + closeCount l₂ :=
  List.countP_append _ _ _

@[simp] lemma initSchemas_append (l₁ l₂ : List (PqEvent σ)) :
    initSchemas (l₁ ++ l₂) = initSchemas l₁ ++ initSchemas l₂ :=
  List.filterMap_append _ _ _

@[simp] lemma writeSchemas_append (l₁ l₂ : List (PqEvent σ)) :
    writeSchemas (l₁ ++ l₂) = writeSchemas l₁ ++ writeSchemas l₂ :=
  List.filterMap_append _ _ _

@[simp] lemma closeCount_init (s : σ) (l : List (PqEvent σ)) :
    closeCount (PqEvent.initWriter s :: l) = closeCount l := by
  simp [closeCount, List.countP_cons]

@[simp] lemma closeCount_write (n : Nat) (s : σ) (l : List (PqEvent σ)) :
    closeCount (PqEvent.writeTable n s :: l) = closeCount l := by
  simp [closeCount, List.countP_cons]

@[simp] lemma closeCount_close (l : List (PqEvent σ)) :
    closeCount (PqEvent.close :: l) = closeCount l + 1 := by
  simp [closeCount, List.countP_cons]

@[simp] lemma initSchemas_init (s : σ) (l : List (PqEvent σ)) :
    initSchemas (PqEvent.initWriter s :: l) = s :: initSchemas l := rfl

@[simp] lemma initSchemas_write (n : Nat) (s : σ) (l : List (PqEvent σ)) :
    initSchemas (PqEvent.writeTable n s :: l) = initSchemas l := rfl

@[simp] lemma initSchemas_close (l : List (PqEvent σ)) :
    initSchemas (PqEvent.close :: l) = initSchemas l := rfl

@[simp] lemma writeSchemas_init (s : σ) (l : List (PqEvent σ)) :
    writeSchemas (PqEvent.initWriter s :: l) = writeSchemas l := rfl

@[simp] lemma writeSchemas_write (n : Nat) (s : σ) (l : List (PqEvent σ)) :
    writeSchemas (PqEvent.writeTable n s :: l) = s :: writeSchemas l := rfl

@[simp] lemma writeSchemas_close (l : List (PqEvent σ)) :
    writeSchemas (PqEvent.close :: l) = writeSchemas l := rfl

/-- Once the writer is initialized with schema `s`, the loop never constructs a
second writer, never closes, keeps the writer state at `s`, and every further
`write_table` carries schema `s` (a chunk whose inferred schema differs makes
`write_table` raise instead of writing). -/
lemma pqLoop_some [DecidableEq σ] (sink : PqSink ρ σ) (cs : Nat) (ending : StreamEnd) :
    ∀ (rows buf : List ρ) (widx : Nat) (s : σ),
      (pqLoop sink cs ending rows buf (some s) widx).2.1 = some s
      ∧ closeCount (pqLoop sink cs ending rows buf (some s) widx).1 = 0
      ∧ initSchemas (pqLoop sink cs ending rows buf (some s) widx).1 = []
      ∧ ∀ s' ∈ writeSchemas (pqLoop sink cs ending rows buf (some s) widx).1, s' = s := by
  intro rows
  induction rows with
  | nil =>
    intro buf widx s
    cases ending with
    | err => simp [pqLoop]
    | eof =>
      by_cases h : buf.isEmpty
      · simp [pqLoop, h]
      · by_cases h1 : sink.infer buf = s
        · by_cases h2 : sink.failAtWrite = some widx
          · simp [pqLoop, h, pqWriteChunk, h1, h2]
          · simp [pqLoop, h, pqWriteChunk, h1, h2]
        · simp [pqLoop, h, pqWriteChunk, h1]
  | cons r rs ih =>
    intro buf widx s
    by_cases h : cs ≤ buf.length + 1
    · by_cases h1 : sink.infer (buf ++ [r]) = s
      · by_cases h2 : sink.failAtWrite = some widx
        · simp [pqLoop, h, pqWriteChunk, h1, h2]
        · rcases hpq : pqLoop sink cs ending rs [] (some s) (widx + 1) with ⟨evs₂, w₃, res⟩
          have hrec := ih [] (widx + 1) s
          rw [hpq] at hrec
          have hstep : pqLoop sink cs ending (r :: rs) buf (some s) widx
              = (PqEvent.writeTable (buf ++ [r]).length s :: evs₂, w₃, res) := by
            simp [pqLoop, h, pqWriteChunk, h1, h2, hpq]
          rw [hstep]
          refine ⟨hrec.1, ?_, ?_, ?_⟩
          · simp [hrec.2.1]
          · simp [hrec.2.2.1]
          · intro s' hs'
            rcases List.mem_cons.mp (by simpa using hs') with h3 | h3
            · exact h3
            · exact hrec.2.2.2 s' h3
      · simp [pqLoop, h, pqWriteChunk, h1]
    · have hstep : pqLoop sink cs ending (r :: rs) buf (some s) widx
          = pqLoop sink cs ending rs (buf ++ [r]) (some s) widx := by
        simp [pqLoop, h]
      rw [hstep]
      exact ih (buf ++ [r]) widx s

/-- Starting from an uninitialized writer, the loop never closes; the writer is
constructed at most once, from the schema inferred on the first emitted chunk;
the final writer state is `none` exactly when no construction happened; and
every `write_table` carries the schema the writer was constructed with. -/
lemma pqLoop_none [DecidableEq σ] (sink : PqSink ρ σ) (cs : Nat) (ending : StreamEnd) :
    ∀ (rows buf : List ρ) (widx : Nat),
      closeCount (pqLoop sink cs ending rows buf none widx).1 = 0
      ∧ initSchemas (pqLoop sink cs ending rows buf none widx).1
          = ((chunkLoop cs ending rows buf).head?.map sink.infer).toList
      ∧ ((pqLoop sink cs ending rows buf none widx).2.1 = none
          ↔ initSchemas (pqLoop sink cs ending rows buf none widx).1 = [])
      ∧ ∀ s ∈ initSchemas (pqLoop sink cs ending rows buf none widx).1,
          ∀ s' ∈ writeSchemas (pqLoop sink cs ending rows buf none widx).1, s' = s := by
  intro rows
  induction rows with
  | nil =>
    intro buf widx
    cases ending with
    | err => simp [pqLoop]
    | eof =>
      by_cases h : buf.isEmpty
      · simp [pqLoop, h]
      · by_cases h2 : sink.failAtWrite = some widx
        · simp [pqLoop, h, pqWriteChunk, h2]
        · simp [pqLoop, h, pqWriteChunk, h2]
  | cons r rs ih =>
    intro buf widx
    by_cases h : cs ≤ buf.length + 1
    · rw [chunkLoop_cons, if_pos h]
      by_cases h2 : sink.failAtWrite = some widx
      · simp [pqLoop, h, pqWriteChunk, h2]
      · rcases hpq : pqLoop sink cs ending rs [] (some (sink.infer (buf ++ [r]))) (widx + 1)
          with ⟨evs₂, w₃, res⟩
        have hrec := pqLoop_some sink cs ending rs [] (widx + 1) (sink.infer (buf ++ [r]))
        rw [hpq] at hrec
        have hstep : pqLoop sink cs ending (r :: rs) buf none widx
            = (PqEvent.initWriter (sink.infer (buf ++ [r]))
                :: PqEvent.writeTable (buf ++ [r]).length (sink.infer (buf ++ [r]))
                :: evs₂, w₃, res) := by
          simp [pqLoop, h, pqWriteChunk, h2, hpq]
        rw [hstep]
        have hw : w₃ = some (sink.infer (buf ++ [r])) := by simpa using hrec.1
        refine ⟨?_, ?_, ?_, ?_⟩
        · simp [hrec.2.1]
        · simp [hrec.2.2.1]
        · simp [hw, hrec.2.2.1]
        · intro s hs s' hs'
          have hs0 : s = sink.infer (buf ++ [r]) := by
            simpa [hrec.2.2.1] using hs
          subst hs0
          rcases List.mem_cons.mp (by simpa using hs') with h3 | h3
          · exact h3
          · exact hrec.2.2.2 s' h3
    · rw [chunkLoop_cons, if_neg h]
      have hstep : pqLoop sink cs ending (r :: rs) buf none widx
          = pqLoop sink cs ending rs (buf ++ [r]) none widx := by
        simp [pqLoop, h]
      rw [hstep]
      exact ih (buf ++ [r]) widx

lemma saveIncrementalParquet_eq [DecidableEq σ] (sink : PqSink ρ σ) (cs : Nat)
    (src : RowSource ρ) :
    saveIncrementalParquet sink cs src
      = ((pqLoop sink cs src.ending src.rows [] none 0).1
          ++ (if (pqLoop sink cs src.ending src.rows [] none 0).2.1.isSome
              then [PqEvent.close] else []),
        (pqLoop sink cs src.ending src.rows [] none 0).2.2) := by
  rcases h : pqLoop sink cs src.ending src.rows [] none 0 with ⟨evs, w, res⟩
  simp [saveIncrementalParquet, h]

/-- Effect of one `write_dataframe` call on the destination table.  Modelled
from the spec (§6, bulk sink write protocol): the sink accepts a batch plus a
mode tag; on a table that does not yet exist, mode `"error"` (raise only if the
table exists) and mode `"overwrite"` (replace the table) both create it, and
`"append"` appends to it. -/
inductive WriteEffect where
  | create
  | append
  | overwrite
deriving DecidableEq, Repr

/-- Effect of a pytd `if_exists` mode string on a destination table that does
not exist.  Modelled from the spec (§6): `"error"` and `"overwrite"` create the
table, `"append"` appends; any other string is rejected by the writer. -/
def ifExistsEffectOnAbsent : String → Option WriteEffect
  | "error" => some WriteEffect.create
  | "overwrite" => some WriteEffect.create
  | "append" => some WriteEffect.append
  | _ => none

/-- Per-table input of the dry-run analysis: whether
`dest_client.exists(dest_db, table.name)` holds, and `table.count` (which may
be `None` for newly created tables). -/
structure TableSpec where
  present : Bool
  count : Option Nat
deriving DecidableEq, Repr

/-- Aggregates accumulated by `perform_dry_run_analysis` (`clone_db.py`). -/
structure DryRunReport where
  create_count : Nat
  skip_count : Nat
  overwrite_count : Nat
  error_count : Nat
  total_rows : Nat
deriving DecidableEq, Repr

/-- One iteration of the `for table in tables` loop of
`perform_dry_run_analysis`: classify the table by existence and policy, and add
its row count (`table.count`, defaulting to 0 when `None`) to the estimate only
on the CREATE and OVERWRITE branches. -/
def dryRunStep (action : TableExistsAction) (rep : DryRunReport) (t : TableSpec) :
    DryRunReport :=
  let row_count := t.count.getD 0
  if t.present then
    match action with
    | TableExistsAction.skip => { rep with skip_count := rep.skip_count + 1 }
    | TableExistsAction.overwrite =>
      { rep with overwrite_count := rep.overwrite_count + 1,
                 total_rows := rep.total_rows + row_count }
    | TableExistsAction.error => { rep with error_count := rep.error_count + 1 }
  else
    { rep with create_count := rep.create_count + 1,
               total_rows := rep.total_rows + row_count }

/-- `perform_dry_run_analysis` (`clone_db.py`): fold the per-table
classification over the table list, starting from all-zero counters.  The
function only reads table existence; it performs no sink write. -/
def performDryRunAnalysis (action : TableExistsAction) (tables : List TableSpec) :
    DryRunReport :=
  tables.foldl (dryRunStep action) ⟨0, 0, 0, 0, 0⟩

/-- A table is transferred (created or overwritten) by the planned run exactly
when it does not exist in the destination, or the policy is OVERWRITE. -/
def willTransfer (action : TableExistsAction) (t : TableSpec) : Bool :=
  !t.present || decide (action = TableExistsAction.overwrite)

/-- An in-memory columnar batch: named columns in schema order, with the
column-major data (`cols.length` columns). -/
structure ColumnarBatch (α : Type) where
  columns : List String
  cols : List (List α)
deriving DecidableEq, Repr

/-- `pd.DataFrame(chunk_data, columns=columns)` in
`_write_chunk_to_destination` (`clone_db.py`) / `save_incremental_parquet`
(`td2parquet.py`): materialize the row chunk column-major against the given
column list.  Pandas raises when a row's width disagrees with `columns`
(spec §4.2's SchemaMismatchError), modelled as `none`. -/
def buildBatch [Inhabited α] (chunk : List (List α)) (columns : List String) :
    Option (ColumnarBatch α) :=
  if chunk.all (fun r => r.length == columns.length) then
    some ⟨columns, (List.range columns.length).map fun j => chunk.map fun r => r.getD j default⟩
  else none

/-- What `clone_db_command` leaves observable after its validation phase: a
process exit status, the sink writes performed, and the per-job outcomes the
caller retained. -/
structure CloneCommandResult (ρ : Type) where
  exitCode : Nat
  sinkEvents : List (CloneEvent ρ)
  retainedOutcomes : List (Option CloneError)
deriving DecidableEq, Repr

/-- `clone_db_command` (`clone_db.py`).  Validation: mutually exclusive
`--skip-existing`/`--overwrite` (exit 1), missing SOURCE/DEST API keys
(exit 2), identical keys (exit 1), empty keys (exit 2), missing source
database (exit 2).  On the dry-run path `perform_dry_run_analysis` prints a
report and the command returns (exit 0, no writes).  Otherwise each table's
`copy_table` is handed to `executor.submit` and the returned future is
discarded; the `with` block joins the workers and the command returns normally
regardless of job outcomes, so the exit status is 0 and no per-job outcome is
retained.  `jobs` lists the observable results the submitted workers produce. -/
def cloneDbCommand (skipExisting overwrite : Bool) (srcKey destKey : Option String)
    (srcDbOk : Bool) (dryRun : Bool) (jobs : List (CopyTableResult ρ)) :
    CloneCommandResult ρ :=
  if skipExisting ∧ overwrite then ⟨1, [], []⟩
  else
    match srcKey, destKey with
    | none, _ => ⟨2, [], []⟩
    | some _, none => ⟨2, [], []⟩
    | some sk, some dk =>
      if sk = dk then ⟨1, [], []⟩
      else if sk = "" ∨ dk = "" then ⟨2, [], []⟩
      else if ¬srcDbOk then ⟨2, [], []⟩
      else if dryRun then ⟨0, [], []⟩
      else ⟨0, jobs.flatMap (fun j => j.events), []⟩

/-- Folding the dry-run classification over a table list, from an arbitrary
starting report. -/
lemma dryRun_foldl (action : TableExistsAction) :
    ∀ (tables : List TableSpec) (rep : DryRunReport),
      tables.foldl (dryRunStep action) rep =
        ⟨rep.create_count + tables.countP (fun t => !t.present),
         rep.skip_count
           + (if action = TableExistsAction.skip
              then tables.countP (fun t => t.present) else 0),
         rep.overwrite_count
           + (if action = TableExistsAction.overwrite
              then tables.countP (fun t => t.present) else 0),
         rep.error_count
           + (if action = TableExistsAction.error
              then tables.countP (fun t => t.present) else 0),
         rep.total_rows
           + ((tables.filter (willTransfer action)).map (fun t => t.count.getD 0)).sum⟩ := by
  intro tables
  induction tables with
  | nil =>
    intro rep
    cases rep
    cases action <;> simp
  | cons t ts ih =>
    intro rep
    rw [List.foldl_cons, ih (dryRunStep action rep t)]
    rcases t with ⟨hp, hc⟩
    cases hp <;> cases action <;>
      simp [dryRunStep, willTransfer, List.countP_cons, List.filter_cons] <;>
      omega

lemma initSchemas_save [DecidableEq σ] (sink : PqSink ρ σ) (cs : Nat)
    (src : RowSource ρ) :
    initSchemas (saveIncrementalParquet sink cs src).1
      = initSchemas (pqLoop sink cs src.ending src.rows [] none 0).1 := by
  rw [saveIncrementalParquet_eq, initSchemas_append]
  by_cases hb : (pqLoop sink cs src.ending src.rows [] none 0).2.1.isSome <;> simp [hb]

lemma writeSchemas_save [DecidableEq σ] (sink : PqSink ρ σ) (cs : Nat)
    (src : RowSource ρ) :
    writeSchemas (saveIncrementalParquet sink cs src).1
      = writeSchemas (pqLoop sink cs src.ending src.rows [] none 0).1 := by
  rw [saveIncrementalParquet_eq, writeSchemas_append]
  by_cases hb : (pqLoop sink cs src.ending src.rows [] none 0).2.1.isSome <;> simp [hb]

lemma closeCount_save [DecidableEq σ] (sink : PqSink ρ σ) (cs : Nat)
    (src : RowSource ρ) :
    closeCount (saveIncrementalParquet sink cs src).1
      = (if (pqLoop sink cs src.ending src.rows [] none 0).2.1.isSome then 1 else 0) := by
  rw [saveIncrementalParquet_eq, closeCount_append,
    (pqLoop_none sink cs src.ending src.rows [] 0).1]
  by_cases hb : (pqLoop sink cs src.ending src.rows [] none 0).2.1.isSome <;> simp [hb]

/-- The clone transfer job never invokes a writer close, on any path. -/
lemma cloneCloseCount_copyTable (tableExists : Bool) (action : TableExistsAction)
    (columns : List String) (cs : Nat) (jobSuccess : Bool) (src : RowSource ρ) :
    cloneCloseCount (copyTable tableExists action columns cs jobSuccess src).events = 0 := by
  rw [copyTable]
  split
  · rfl
  · split
    · rfl
    · show cloneCloseCount (processLoop action columns cs src.ending src.rows [] 0) = 0
      rw [processLoop_eq_modeTagged]
      exact cloneCloseCount_modeTagged action columns _ 0

/-- C2: for every job whose destination table already exists, policy SKIP and
policy ERROR both terminate the job as skipped, with zero reads from the source
cursor, zero sink writes and no raised error; in particular policy ERROR
behaves identically to SKIP rather than failing the job. -/
theorem existing_table_skip_and_error_policies (columns : List String) (cs : Nat)
    (jobSuccess : Bool) (src : RowSource ρ) :
    copyTable true TableExistsAction.skip columns cs jobSuccess src
        = { events := [], rowsRead := 0, skippedExisting := true, error := none }
    ∧ copyTable true TableExistsAction.error columns cs jobSuccess src
        = copyTable true TableExistsAction.skip columns cs jobSuccess src := by
  constructor <;> simp [copyTable]

/-- C3: for chunk_size > 0 and a finite row sequence of length N, the chunk
accumulation loop yields ⌈N/chunk_size⌉ chunks whose lengths sum to N; every
chunk except the last has exactly chunk_size rows and the last has
N mod chunk_size rows (chunk_size when N is an exact multiple); an empty
source yields zero chunks. -/
theorem chunk_accumulation_correct (cs : Nat) (rows : List ρ) (hcs : 0 < cs) :
    chunks cs ([] : List ρ) = []
    ∧ ((chunks cs rows).map List.length).sum = rows.length
    ∧ (chunks cs rows).length = (rows.length + cs - 1) / cs
    ∧ (∀ c ∈ (chunks cs rows).dropLast, c.length = cs)
    ∧ (rows ≠ [] → (chunks cs rows).getLast?.map List.length
        = some (if rows.length % cs = 0 then cs else rows.length % cs)) := by
  refine ⟨by simp [chunks], ?_, ?_, ?_, ?_⟩
  · rw [← List.length_flatten, chunks, chunkLoop_eof_flatten]
    simp
  · have h := chunkLoop_eof_length cs rows [] (by simpa using hcs)
    simpa [chunks] using h
  · intro c hc
    exact chunkLoop_eof_dropLast_sizes cs rows [] (by simpa using hcs) c hc
  · intro hne
    have h := chunkLoop_eof_getLast cs rows [] (by simpa using hcs) (by simp [hne])
    simpa [chunks] using h

/-- C3 witness at chunk_size 2 over three rows. -/
theorem chunk_accumulation_correct_witness :
    (0 : Nat) < 2
    ∧ (chunks 2 ([] : List Nat) = []
      ∧ ((chunks 2 [10, 11, 12]).map List.length).sum = [10, 11, 12].length
      ∧ (chunks 2 [10, 11, 12]).length = ([10, 11, 12].length + 2 - 1) / 2
      ∧ (∀ c ∈ (chunks 2 [10, 11, 12]).dropLast, c.length = 2)
      ∧ ([10, 11, 12] ≠ [] → (chunks 2 [10, 11, 12]).getLast?.map List.length
          = some (if [10, 11, 12].length % 2 = 0 then 2 else [10, 11, 12].length % 2))) :=
  ⟨by decide, chunk_accumulation_correct 2 [10, 11, 12] (by decide)⟩

/-- C4: within one transfer job the write trace tags the chunk with counter 0
with the policy-determined if_exists mode and every chunk with a positive
counter with "append"; on a destination table that does not exist the
policy-determined mode (any policy, including ERROR) creates the table and
"append" appends, so the first write creates and all remaining writes append. -/
theorem chunk_write_modes (action : TableExistsAction) (columns : List String)
    (cs : Nat) (ending : StreamEnd) (rows : List ρ) :
    processLoop action columns cs ending rows [] 0
      = modeTagged action columns 0 (chunkLoop cs ending rows [])
    ∧ ifExistsOf action 0 = ifExistsParam action
    ∧ (∀ i : Nat, ifExistsOf action (i + 1) = "append")
    ∧ ifExistsEffectOnAbsent (ifExistsParam action) = some WriteEffect.create
    ∧ ifExistsEffectOnAbsent "append" = some WriteEffect.append := by
  refine ⟨processLoop_eq_modeTagged action columns cs ending rows [] 0, rfl, ?_, ?_, rfl⟩
  · intro i
    simp [ifExistsOf]
  · cases action <;> rfl

/-- C6: if the source iterator raises mid-chunk, the job fails with the source
read error; every chunk actually written is full, and the written rows are
exactly the full-chunk prefix of the stream — the rows accumulated for the
in-flight chunk are never written, while completed chunks remain written. -/
theorem midchunk_error_discards_partial_chunk (action : TableExistsAction)
    (columns : List String) (cs : Nat) (rows : List ρ) (hcs : 0 < cs) :
    (copyTable false action columns cs true ⟨rows, StreamEnd.err⟩).error
        = some CloneError.sourceRead
    ∧ (cloneChunks (copyTable false action columns cs true
        ⟨rows, StreamEnd.err⟩).events).flatten = rows.take (cs * (rows.length / cs))
    ∧ ∀ c ∈ cloneChunks (copyTable false action columns cs true
        ⟨rows, StreamEnd.err⟩).events, c.length = cs := by
  have hev : (copyTable false action columns cs true ⟨rows, StreamEnd.err⟩).events
      = processLoop action columns cs StreamEnd.err rows [] 0 := by
    simp [copyTable]
  refine ⟨by simp [copyTable], ?_, ?_⟩
  · rw [hev, processLoop_eq_modeTagged, cloneChunks_modeTagged]
    have h := chunkLoop_err_flatten cs rows [] (by simpa using hcs)
    simpa using h
  · intro c hc
    rw [hev, processLoop_eq_modeTagged, cloneChunks_modeTagged] at hc
    exact chunkLoop_err_sizes cs rows [] (by simpa using hcs) c hc

/-- C6 witness: three rows, chunk_size 2, iterator raising after the third
row — one full chunk written, the in-flight row dropped. -/
theorem midchunk_error_discards_partial_chunk_witness :
    (0 : Nat) < 2
    ∧ ((copyTable false TableExistsAction.overwrite ["c"] 2 true
          (⟨[10, 11, 12], StreamEnd.err⟩ : RowSource Nat)).error
            = some CloneError.sourceRead
      ∧ (cloneChunks (copyTable false TableExistsAction.overwrite ["c"] 2 true
          (⟨[10, 11, 12], StreamEnd.err⟩ : RowSource Nat)).events).flatten
            = [10, 11, 12].take (2 * ([10, 11, 12].length / 2))
      ∧ ∀ c ∈ cloneChunks (copyTable false TableExistsAction.overwrite ["c"] 2 true
          (⟨[10, 11, 12], StreamEnd.err⟩ : RowSource Nat)).events, c.length = 2) :=
  ⟨by decide,
    midchunk_error_discards_partial_chunk TableExistsAction.overwrite ["c"] 2
      [10, 11, 12] (by decide)⟩

/-- C10: an empty query result makes the incremental Parquet export a
successful no-op: the sink trace is empty (no write, no writer construction —
hence no output file — and no close), no error escapes, and
fetch_table_incremental still returns success. -/
theorem empty_result_successful_noop [DecidableEq σ] (sink : PqSink ρ σ) (cs : Nat) :
    saveIncrementalParquet sink cs ⟨[], StreamEnd.eof⟩ = ([], none)
    ∧ fetchTableIncremental true sink cs ⟨[], StreamEnd.eof⟩ = (true, []) := by
  constructor
  · simp [saveIncrementalParquet, pqLoop]
  · simp [fetchTableIncremental, saveIncrementalParquet, pqLoop]

/-- C5 (amended): in the incremental Parquet export, close() runs exactly once
whenever the writer was initialized — on every exit path, as the final trace
event, hence before any propagating error — and not at all when the writer was
never constructed; the clone transfer job (copy_table) never invokes a writer
close at all. -/
theorem close_exactly_once_when_writer_initialized [DecidableEq σ]
    (sink : PqSink ρ σ) (cs : Nat) (src : RowSource ρ) (tableExists : Bool)
    (action : TableExistsAction) (columns : List String) (jobSuccess : Bool)
    (src₂ : RowSource ρ) :
    closeCount (saveIncrementalParquet sink cs src).1
      = (if initSchemas (saveIncrementalParquet sink cs src).1 = [] then 0 else 1)
    ∧ (initSchemas (saveIncrementalParquet sink cs src).1 ≠ []
        → (saveIncrementalParquet sink cs src).1.getLast? = some PqEvent.close)
    ∧ cloneCloseCount (copyTable tableExists action columns cs jobSuccess src₂).events
        = 0 := by
  have hiff := (pqLoop_none sink cs src.ending src.rows [] 0).2.2.1
  refine ⟨?_, ?_, cloneCloseCount_copyTable tableExists action columns cs jobSuccess src₂⟩
  · rw [closeCount_save, initSchemas_save]
    by_cases hw : (pqLoop sink cs src.ending src.rows [] none 0).2.1 = none
    · simp [hw, hiff.mp hw]
    · have h1 : (pqLoop sink cs src.ending src.rows [] none 0).2.1.isSome :=
        Option.isSome_iff_ne_none.mpr hw
      have h2 : initSchemas (pqLoop sink cs src.ending src.rows [] none 0).1 ≠ [] :=
        fun hx => hw (hiff.mpr hx)
      simp [h1, h2]
  · intro hne
    rw [initSchemas_save] at hne
    have hw : (pqLoop sink cs src.ending src.rows [] none 0).2.1 ≠ none :=
      fun hx => hne (hiff.mp hx)
    have h1 : (pqLoop sink cs src.ending src.rows [] none 0).2.1.isSome :=
      Option.isSome_iff_ne_none.mpr hw
    rw [saveIncrementalParquet_eq]
    simp [h1, List.getLast?_concat]

/-- C5 witness: a one-chunk export closes exactly once and ends its trace with
close; a skipped clone job closes zero times. -/
theorem close_exactly_once_when_writer_initialized_witness :
    closeCount (saveIncrementalParquet (⟨fun c => c.length, none⟩ : PqSink Nat Nat) 1
        ⟨[5], StreamEnd.eof⟩).1
      = (if initSchemas (saveIncrementalParquet (⟨fun c => c.length, none⟩ : PqSink Nat Nat) 1
          ⟨[5], StreamEnd.eof⟩).1 = [] then 0 else 1)
    ∧ (saveIncrementalParquet (⟨fun c => c.length, none⟩ : PqSink Nat Nat) 1
        ⟨[5], StreamEnd.eof⟩).1.getLast? = some PqEvent.close
    ∧ cloneCloseCount (copyTable false TableExistsAction.skip ["a"] 1 true
        (⟨[7], StreamEnd.eof⟩ : RowSource Nat)).events = 0 :=
  ⟨(close_exactly_once_when_writer_initialized (⟨fun c => c.length, none⟩ : PqSink Nat Nat)
      1 ⟨[5], StreamEnd.eof⟩ false TableExistsAction.skip ["a"] true ⟨[7], StreamEnd.eof⟩).1,
   (close_exactly_once_when_writer_initialized (⟨fun c => c.length, none⟩ : PqSink Nat Nat)
      1 ⟨[5], StreamEnd.eof⟩ false TableExistsAction.skip ["a"] true
      ⟨[7], StreamEnd.eof⟩).2.1 (by decide),
   (close_exactly_once_when_writer_initialized (⟨fun c => c.length, none⟩ : PqSink Nat Nat)
      1 ⟨[5], StreamEnd.eof⟩ false TableExistsAction.skip ["a"] true
      ⟨[7], StreamEnd.eof⟩).2.2⟩

/-- C5 counterexample: a clone transfer job that performs a sink write (the
sink was prepared and written) invokes close zero times, not exactly once. -/
theorem copy_table_write_without_close :
    cloneWriteCount (copyTable false TableExistsAction.error ["c"] 1 true
        (⟨[0], StreamEnd.eof⟩ : RowSource Nat)).events = 1
    ∧ cloneCloseCount (copyTable false TableExistsAction.error ["c"] 1 true
        (⟨[0], StreamEnd.eof⟩ : RowSource Nat)).events = 0 := by
  decide

/-- C7: in one incremental Parquet job the writer schema is established at most
once, from the schema inferred on the first emitted chunk, and every write
carries that established schema; in one clone job every write carries the
single pre-supplied column list derived from the source result schema. -/
theorem schema_established_once [DecidableEq σ] (sink : PqSink ρ σ) (cs : Nat)
    (src : RowSource ρ) (action : TableExistsAction) (columns : List String) :
    initSchemas (saveIncrementalParquet sink cs src).1
      = ((chunkLoop cs src.ending src.rows []).head?.map sink.infer).toList
    ∧ (∀ s ∈ initSchemas (saveIncrementalParquet sink cs src).1,
        ∀ s' ∈ writeSchemas (saveIncrementalParquet sink cs src).1, s' = s)
    ∧ ∀ e ∈ processLoop action columns cs src.ending src.rows [] 0,
        cloneColumnsOf e = some columns := by
  have hmain := pqLoop_none sink cs src.ending src.rows [] 0
  refine ⟨?_, ?_, ?_⟩
  · rw [initSchemas_save]
    exact hmain.2.1
  · intro s hs s' hs'
    rw [initSchemas_save] at hs
    rw [writeSchemas_save] at hs'
    exact hmain.2.2.2 s hs s' hs'
  · intro e he
    rw [processLoop_eq_modeTagged] at he
    exact cloneColumnsOf_modeTagged action columns _ 0 e he

/-- C7 witness: a two-chunk export whose writer is constructed once, from the
first chunk's inferred schema, with both writes carrying it; a clone write
carrying the pre-supplied column list. -/
theorem schema_established_once_witness :
    initSchemas (saveIncrementalParquet (⟨fun c => c.length, none⟩ : PqSink Nat Nat) 1
        ⟨[5, 6], StreamEnd.eof⟩).1
      = ((chunkLoop 1 StreamEnd.eof [5, 6] []).head?.map
          (fun c : List Nat => c.length)).toList
    ∧ (1 : Nat) = 1
    ∧ cloneColumnsOf (CloneEvent.write [(5 : Nat)] ["x"] "error") = some ["x"] :=
  ⟨(schema_established_once (⟨fun c => c.length, none⟩ : PqSink Nat Nat) 1
      ⟨[5, 6], StreamEnd.eof⟩ TableExistsAction.skip ["x"]).1,
   (schema_established_once (⟨fun c => c.length, none⟩ : PqSink Nat Nat) 1
      ⟨[5, 6], StreamEnd.eof⟩ TableExistsAction.skip ["x"]).2.1 1 (by decide) 1 (by decide),
   (schema_established_once (⟨fun c => c.length, none⟩ : PqSink Nat Nat) 1
      ⟨[5, 6], StreamEnd.eof⟩ TableExistsAction.skip ["x"]).2.2
      (CloneEvent.write [5] ["x"] "error") (by decide)⟩

/-- The dry-run path of the clone command performs zero sink writes. -/
lemma cloneDbCommand_dryRun_no_writes (se ow : Bool) (srcKey destKey : Option String)
    (srcDbOk : Bool) (jobs : List (CopyTableResult ρ)) :
    (cloneDbCommand se ow srcKey destKey srcDbOk true jobs).sinkEvents = [] := by
  rcases srcKey with _ | sk <;> rcases destKey with _ | dk <;>
    simp only [cloneDbCommand] <;> split_ifs <;> simp_all

/-- C8: the dry-run analysis is a pure fold over the table list: create_count
counts non-existing tables; skip_count, overwrite_count and error_count count
existing tables exactly under the matching policy; the row estimate sums the
counts (missing counted as 0) of only the tables that will be created or
overwritten; and the command's dry-run path performs zero sink writes. -/
theorem dry_run_report_correct (action : TableExistsAction) (tables : List TableSpec)
    (se ow : Bool) (srcKey destKey : Option String) (srcDbOk : Bool)
    (jobs : List (CopyTableResult ρ)) :
    (performDryRunAnalysis action tables).create_count
        = tables.countP (fun t => !t.present)
    ∧ (performDryRunAnalysis action tables).skip_count
        = (if action = TableExistsAction.skip
           then tables.countP (fun t => t.present) else 0)
    ∧ (performDryRunAnalysis action tables).overwrite_count
        = (if action = TableExistsAction.overwrite
           then tables.countP (fun t => t.present) else 0)
    ∧ (performDryRunAnalysis action tables).error_count
        = (if action = TableExistsAction.error
           then tables.countP (fun t => t.present) else 0)
    ∧ (performDryRunAnalysis action tables).total_rows
        = ((tables.filter (willTransfer action)).map (fun t => t.count.getD 0)).sum
    ∧ (cloneDbCommand se ow srcKey destKey srcDbOk true jobs).sinkEvents = [] := by
  have h := dryRun_foldl action tables ⟨0, 0, 0, 0, 0⟩
  exact ⟨by simp [performDryRunAnalysis, h], by simp [performDryRunAnalysis, h],
    by simp [performDryRunAnalysis, h], by simp [performDryRunAnalysis, h],
    by simp [performDryRunAnalysis, h],
    cloneDbCommand_dryRun_no_writes se ow srcKey destKey srcDbOk jobs⟩

/-- C9: building the columnar batch from a non-empty, schema-aligned row chunk
succeeds and yields exactly one column per schema entry, each column holding
one value per chunk row; the build is a pure function of the chunk and the
column list. -/
theorem build_batch_shape {α : Type} [Inhabited α] (chunk : List (List α))
    (columns : List String) (_hne : chunk ≠ [])
    (halign : ∀ r ∈ chunk, r.length = columns.length) :
    ∃ b, buildBatch chunk columns = some b
      ∧ b.columns = columns
      ∧ b.cols.length = columns.length
      ∧ ∀ c ∈ b.cols, c.length = chunk.length := by
  have hall : chunk.all (fun r => r.length == columns.length) = true := by
    rw [List.all_eq_true]
    intro r hr
    exact beq_iff_eq.mpr (halign r hr)
  refine ⟨⟨columns, (List.range columns.length).map
      fun j => chunk.map fun r => r.getD j default⟩, ?_, rfl, ?_, ?_⟩
  · rw [buildBatch, if_pos hall]
  · simp
  · intro c hc
    simp only [List.mem_map] at hc
    obtain ⟨j, _, rfl⟩ := hc
    simp

/-- C9 witness: a 2-row, 2-column chunk builds a 2-column batch with 2 entries
per column. -/
theorem build_batch_shape_witness :
    [[1, 2], [3, 4]] ≠ ([] : List (List Nat))
    ∧ (∀ r ∈ [[(1 : Nat), 2], [3, 4]], r.length = ["a", "b"].length)
    ∧ ∃ b, buildBatch [[(1 : Nat), 2], [3, 4]] ["a", "b"] = some b
        ∧ b.columns = ["a", "b"]
        ∧ b.cols.length = ["a", "b"].length
        ∧ ∀ c ∈ b.cols, c.length = [[(1 : Nat), 2], [3, 4]].length :=
  ⟨by decide, by decide,
    build_batch_shape [[1, 2], [3, 4]] ["a", "b"] (by decide) (by decide)⟩

/-- C1 evaluation: a submitted copy job can fail (here, its query job fails and
the error is re-raised into the discarded future), yet clone_db_command exits
with status 0 and retains no per-job outcome — the failure is not reflected in
the aggregate result or the exit status. -/
theorem failed_job_not_reflected_in_exit_status :
    (copyTable false TableExistsAction.error ["c"] 1 false
        (⟨[], StreamEnd.eof⟩ : RowSource Nat)).error = some CloneError.queryJobFailure
    ∧ (cloneDbCommand false false (some "source-key") (some "dest-key") true false
        [copyTable false TableExistsAction.error ["c"] 1 false
          (⟨[], StreamEnd.eof⟩ : RowSource Nat)]).exitCode = 0
    ∧ (cloneDbCommand false false (some "source-key") (some "dest-key") true false
        [copyTable false TableExistsAction.error ["c"] 1 false
          (⟨[], StreamEnd.eof⟩ : RowSource Nat)]).retainedOutcomes = [] := by
  decide

end PetitCli
